import Mathlib

/-!
Verification of the Froggy-LS document index and query engine.

The development shallowly embeds the Rust sources:
  * `src/document.rs`       — `Doc`, `Index::build`, the two position conversions
  * `src/diagnostics.rs`    — `collect_diagnostics`
  * `src/semantic_tokens.rs`— `build_semantic_tokens`, `encode_semantic_tokens`
  * `src/backend.rs`        — `goto_definition`, `references`, `hover`
  * `src/utils/tree_sitter_helpers.rs` — `dfs_visit`, `find_node_at_position`,
    `labeldef_to_range`

Text is a `List Char`; byte offsets count UTF-8 bytes, wide columns count
UTF-16 code units.  Parse trees are modelled as an inductive of node records
(kind, byte span, point span, error/missing flags, field name, children),
mirroring exactly the data tree-sitter exposes to this code.
-/

namespace Froggy

/-- UTF-16 code units a character occupies (1, or 2 for astral-plane). -/
def utf16Size (c : Char) : Nat :=
  if c.toNat < 65536 then 1 else 2

/-- Byte length of a text (sum of UTF-8 sizes). -/
def byteLen : List Char → Nat
  | [] => 0
  | c :: cs => c.utf8Size + byteLen cs

/-- LSP position: 0-based line and UTF-16 column, as in `lsp_types::Position`. -/
structure LspPos where
  line : Nat
  character : Nat
deriving DecidableEq, Repr

/-- Half-open byte interval, as `ByteRange` in `src/document.rs`. -/
structure ByteRange where
  start : Nat
  stop : Nat
deriving DecidableEq, Repr

/-! ### Position mapper

Modelled from the spec: the mapper itself lives in the external `line_index`
crate, so §4.1 of the spec is the authority here.  It is "built once per text
snapshot from a line-start offset table"; `byteToPosition` fails when the
offset is outside `[0, len]`; `positionToByte` "clamps a column beyond line
width to line end" and fails with `LineNotFound` when the line index is out of
range.  The spec does not fix the behaviour on an offset strictly inside a
multi-byte character; the model clamps such an offset down to the character
start.  (Whatever convention is chosen there, `positionToByte` can only ever
produce character-boundary offsets, which is all the theorems below rely on.)
-/

/-- Walk the text consuming `o` bytes, tracking (line, UTF-16 column). -/
def bPos : List Char → Nat → Nat → Nat → LspPos
  | [], _, l, c => ⟨l, c⟩
  | ch :: cs, o, l, c =>
    if o < ch.utf8Size then ⟨l, c⟩
    else if ch = '\n' then bPos cs (o - ch.utf8Size) (l + 1) 0
    else bPos cs (o - ch.utf8Size) l (c + utf16Size ch)

/-- Rust `Doc::offset_to_lsp_position`: byte offset to UTF-16 line/column;
`none` when the offset exceeds the text length (`PositionOutOfRange`). -/
def offsetToLspPosition (t : List Char) (o : Nat) : Option LspPos :=
  if o ≤ byteLen t then some (bPos t o 0 0) else none

/-- Skip `l` line starts; returns the remaining text and the byte offset of
the line start, or `none` when the line index is out of range
(`LineNotFound`). -/
def skipLines : List Char → Nat → Nat → Option (List Char × Nat)
  | cs, 0, acc => some (cs, acc)
  | [], _ + 1, _ => none
  | ch :: cs, l + 1, acc =>
    if ch = '\n' then skipLines cs l (acc + 1)
    else skipLines cs (l + 1) (acc + ch.utf8Size)

/-- Consume `col` UTF-16 units within the current line, clamping at the line
end; returns the resulting byte offset. -/
def consumeCol : List Char → Nat → Nat → Nat
  | [], _, acc => acc
  | ch :: cs, col, acc =>
    if ch = '\n' then acc
    else if utf16Size ch ≤ col then consumeCol cs (col - utf16Size ch) (acc + ch.utf8Size)
    else acc

/-- Rust `Doc::lsp_position_to_offset`: UTF-16 line/column to byte offset. -/
def lspPositionToOffset (t : List Char) (p : LspPos) : Option Nat :=
  (skipLines t p.line 0).map fun r => consumeCol r.1 p.character r.2

example : offsetToLspPosition "ab\ncd".data 4 = some ⟨1, 1⟩ := by decide
example : lspPositionToOffset "ab\ncd".data ⟨1, 1⟩ = some 4 := by decide
example : offsetToLspPosition "é".data 1 = some ⟨0, 0⟩ := by decide
example : lspPositionToOffset "é".data ⟨0, 1⟩ = some 2 := by decide
example : lspPositionToOffset "ab".data ⟨1, 0⟩ = none := by decide

/-! ### Byte-range slicing (`Node::utf8_text` over `text.as_bytes()`)

`utf8_text` is `Ok` exactly when the byte span cuts the text on character
boundaries inside the buffer; the result is the characters in between. -/

/-- Drop `o` bytes from the front; `none` when `o` is not a boundary. -/
def dropBytes : List Char → Nat → Option (List Char)
  | cs, 0 => some cs
  | [], _ + 1 => none
  | c :: cs, o + 1 =>
    if c.utf8Size ≤ o + 1 then dropBytes cs (o + 1 - c.utf8Size) else none

/-- Take `o` bytes from the front; `none` when `o` is not a boundary. -/
def takeBytes : List Char → Nat → Option (List Char)
  | _, 0 => some []
  | [], _ + 1 => none
  | c :: cs, o + 1 =>
    if c.utf8Size ≤ o + 1 then (takeBytes cs (o + 1 - c.utf8Size)).map (c :: ·) else none

/-- Rust `node.utf8_text(bytes)` for the byte span `[s, e)`. -/
def sliceUtf8 (t : List Char) (s e : Nat) : Option (List Char) :=
  (dropBytes t s).bind (takeBytes · (e - s))

example : (sliceUtf8 "HOP loop".data 4 8).map String.mk = some "loop" := by decide
example : sliceUtf8 "é".data 1 2 = none := by decide

/-! ### Parse trees

The parser is an external collaborator; a tree is modelled as the record of
everything a `tree_sitter::Node` exposes to this code: kind tag, byte span,
point span (row / byte column), error and missing flags, the field name the
node sits under in its parent, and the ordered child list. -/

/-- Rust `tree_sitter::Point`: row and byte column. -/
structure Point where
  row : Nat
  col : Nat
deriving DecidableEq, Repr

inductive RawNode where
  | mk (kind : String) (startByte endByte : Nat) (startPoint endPoint : Point)
      (isErr isMiss : Bool) (fieldName : Option String)
      (children : List RawNode) : RawNode

def RawNode.kind : RawNode → String
  | ⟨k, _, _, _, _, _, _, _, _⟩ => k

def RawNode.startByte : RawNode → Nat
  | ⟨_, s, _, _, _, _, _, _, _⟩ => s

def RawNode.endByte : RawNode → Nat
  | ⟨_, _, e, _, _, _, _, _, _⟩ => e

def RawNode.startPoint : RawNode → Point
  | ⟨_, _, _, p, _, _, _, _, _⟩ => p

def RawNode.endPoint : RawNode → Point
  | ⟨_, _, _, _, p, _, _, _, _⟩ => p

def RawNode.isErr : RawNode → Bool
  | ⟨_, _, _, _, _, b, _, _, _⟩ => b

def RawNode.isMiss : RawNode → Bool
  | ⟨_, _, _, _, _, _, b, _, _⟩ => b

def RawNode.fieldName : RawNode → Option String
  | ⟨_, _, _, _, _, _, _, f, _⟩ => f

def RawNode.children : RawNode → List RawNode
  | ⟨_, _, _, _, _, _, _, _, cs⟩ => cs

/-- Rust `node.child_by_field_name(name)`: first child under that field. -/
def RawNode.childByFieldName (n : RawNode) (f : String) : Option RawNode :=
  n.children.find? (·.fieldName = some f)

/-- Rust `node.child(i)`. -/
def RawNode.child (n : RawNode) (i : Nat) : Option RawNode :=
  n.children.get? i

mutual

def sizeN : RawNode → Nat
  | ⟨_, _, _, _, _, _, _, _, cs⟩ => 1 + sizeL cs

def sizeL : List RawNode → Nat
  | [] => 0
  | c :: cs => sizeN c + sizeL cs

end

/-! ### The DFS traversal (`dfs_visit` in `tree_sitter_helpers.rs`)

The Rust loop keeps an explicit stack, pops a node, visits it, then pushes
its children in order — so the child pushed last (the rightmost) is popped
first, and siblings are visited in reverse document order.  The same loop
shape is used verbatim by `collect_diagnostics`.  The list below is the exact
visit order of that loop; each node is paired with the kind of its parent, which
is what `node.parent()` is consulted for in the visitors. -/

def sizeLP : List (RawNode × Option String) → Nat
  | [] => 0
  | (n, _) :: rest => sizeN n + sizeLP rest

theorem sizeLP_append (a b : List (RawNode × Option String)) :
    sizeLP (a ++ b) = sizeLP a + sizeLP b := by
  induction a with
  | nil => simp [sizeLP]
  | cons hd tl ih =>
    obtain ⟨n, pk⟩ := hd
    simp [sizeLP, ih]; omega

theorem sizeLP_reverse (a : List (RawNode × Option String)) :
    sizeLP a.reverse = sizeLP a := by
  induction a with
  | nil => rfl
  | cons hd tl ih =>
    obtain ⟨n, pk⟩ := hd
    simp [List.reverse_cons, sizeLP_append, sizeLP, ih]; omega

theorem sizeLP_map_kind (cs : List RawNode) (k : String) :
    sizeLP (cs.map fun c => (c, some k)) = sizeL cs := by
  induction cs with
  | nil => rfl
  | cons c cs ih => simp [sizeLP, sizeL, ih]

/-- Visit order of the stack loop in `dfs_visit` (and of the identical loop
in `collect_diagnostics`): pop, visit, push children in document order.
This is the literal translation of the Rust loop (the stack is a list with
its top at the head), compiled by well-founded recursion. -/
def dfsStack : List (RawNode × Option String) → List (RawNode × Option String)
  | [] => []
  | (n, pk) :: rest =>
    (n, pk) :: dfsStack ((n.children.map fun c => (c, some n.kind)).reverse ++ rest)
termination_by l => sizeLP l
decreasing_by
  simp only [sizeLP_append, sizeLP_reverse, sizeLP_map_kind, sizeLP]
  cases n with
  | mk k sb eb sp ep ie im f cs =>
    simp only [RawNode.children, sizeN]
    omega

/-- Fuel-indexed version of the same loop; one fuel unit per pop, and the
loop pops exactly `sizeLP` stack entries, so `sizeLP` fuel reproduces
`dfsStack` (proved in `dfsListP_eq_dfsStack`).  This structurally recursive
form is what the executable pipeline uses. -/
def dfsFuel : Nat → List (RawNode × Option String) → List (RawNode × Option String)
  | 0, _ => []
  | _ + 1, [] => []
  | fuel + 1, (n, pk) :: rest =>
    (n, pk) :: dfsFuel fuel ((n.children.map fun c => (c, some n.kind)).reverse ++ rest)

def dfsListP (l : List (RawNode × Option String)) : List (RawNode × Option String) :=
  dfsFuel (sizeLP l) l

theorem sizeN_pos (n : RawNode) : 1 ≤ sizeN n := by
  cases n with
  | mk k sb eb sp ep ie im f cs => simp [sizeN]

theorem dfsFuel_sufficient :
    ∀ (fuel : Nat) (l : List (RawNode × Option String)),
      sizeLP l ≤ fuel → dfsFuel fuel l = dfsStack l := by
  intro fuel
  induction fuel with
  | zero =>
    intro l h
    cases l with
    | nil => rw [dfsStack]; rfl
    | cons hd tl =>
      obtain ⟨n, pk⟩ := hd
      exfalso
      have := sizeN_pos n
      simp [sizeLP] at h
      omega
  | succ fuel ih =>
    intro l h
    cases l with
    | nil => rw [dfsStack]; rfl
    | cons hd tl =>
      obtain ⟨n, pk⟩ := hd
      rw [dfsStack]
      show (n, pk) :: dfsFuel fuel _ = _
      congr 1
      apply ih
      simp only [sizeLP_append, sizeLP_reverse, sizeLP_map_kind] at *
      cases n with
      | mk k sb eb sp ep ie im f cs =>
        simp only [RawNode.children, sizeN, sizeLP] at *
        omega

/-- Sanity: the fuel form used by the pipeline is the stack loop. -/
theorem dfsListP_eq_dfsStack (l : List (RawNode × Option String)) :
    dfsListP l = dfsStack l :=
  dfsFuel_sufficient (sizeLP l) l (Nat.le_refl _)

/-- Visit order of `dfs_visit(tree, visit)`, starting from the root. -/
def dfsOrder (root : RawNode) : List (RawNode × Option String) :=
  dfsListP [(root, none)]

/-! ### Label index (`Index` in `src/document.rs`)

The Rust `HashMap`s are modelled as functions: `insert` overwrites the
entry pointwise, `entry(..).or_default().push(..)` appends to the list of the entry.  (A key is present in `label_refs` iff its list is non-empty, so the
function-to-list view loses nothing.) -/

structure Index where
  label_defs : String → Option ByteRange
  label_refs : String → List ByteRange

def Index.empty : Index :=
  ⟨fun _ => none, fun _ => []⟩

/-- The body of the `dfs_visit` closure in `Index::build`: one visited node
updates the maps.  Definitions record the span of the *node*, references record
the span of the *identifier child*, exactly as in the source. -/
def indexStep (text : List Char) (idx : Index) (n : RawNode) : Index :=
  if n.kind = "label_definition" then
    match n.childByFieldName "name" <|> n.child 1 with
    | some id =>
      match sliceUtf8 text id.startByte id.endByte with
      | some name =>
        { idx with
          label_defs := fun k =>
            if k = String.mk name then some ⟨n.startByte, n.endByte⟩
            else idx.label_defs k }
      | none => idx
    | none => idx
  else if n.kind = "label_reference" then
    match n.childByFieldName "name" <|> n.child 0 with
    | some id =>
      match sliceUtf8 text id.startByte id.endByte with
      | some name =>
        { idx with
          label_refs := fun k =>
            if k = String.mk name then idx.label_refs k ++ [⟨id.startByte, id.endByte⟩]
            else idx.label_refs k }
      | none => idx
    | none => idx
  else idx

/-- Rust `Index::build(tree, text)`: fold the visit action over the traversal. -/
def Index.build (tree : RawNode) (text : List Char) : Index :=
  (dfsOrder tree).foldl (fun idx np => indexStep text idx np.1) Index.empty

/-! ### Documents (`Doc` in `src/document.rs`)

`line_index` is derived from `text` by the mapper functions above, so it is
not stored separately; the struct invariantly carries text, version, tree
and index of one snapshot. -/

structure Doc where
  text : List Char
  version : Int
  tree : RawNode
  index : Index

/-- Rust `Doc::new`. -/
def Doc.new (text : List Char) (version : Int) (tree : RawNode) : Doc :=
  ⟨text, version, tree, Index.build tree text⟩

/-- Rust `Doc::update`: the text and version fields are overwritten, then
`parser.parse(&self.text, None).expect("parse() returned None")` runs — when
the parser returns no tree the `expect` panics, modelled as `none`; otherwise
the tree, index and line index are rebuilt from the new text. -/
def Doc.update (d : Doc) (text : List Char) (version : Int)
    (parse : List Char → Option RawNode) : Option Doc :=
  match parse text with
  | none => none
  | some tr => some ⟨text, version, tr, Index.build tr text⟩

/-- Rust `Doc::lsp_position_to_offset`. -/
def Doc.lspPositionToOffset (d : Doc) (p : LspPos) : Option Nat :=
  Froggy.lspPositionToOffset d.text p

/-- Rust `Doc::offset_to_lsp_position`. -/
def Doc.offsetToLspPosition (d : Doc) (o : Nat) : Option LspPos :=
  Froggy.offsetToLspPosition d.text o

/-- LSP `Range`. -/
structure LspRange where
  start : LspPos
  stop : LspPos
deriving DecidableEq, Repr

/-- Rust `labeldef_to_range` in `tree_sitter_helpers.rs`: both ends through the
mapper, `unwrap_or_default()` giving position (0,0). -/
def labeldefToRange (r : ByteRange) (d : Doc) : LspRange :=
  ⟨(d.offsetToLspPosition r.start).getD ⟨0, 0⟩,
   (d.offsetToLspPosition r.stop).getD ⟨0, 0⟩⟩

/-! ### Node locator (`find_node_at_position` in `tree_sitter_helpers.rs`)

The Rust function degrades an unmappable position to byte offset 0
(`unwrap_or(0)`), recomputes the (row, byte-column) point of that offset,
and calls `descendant_for_point_range(point, point)` with the root as
fallback.  Modelled from the spec (§4.3), the descent — which lives in the
external tree-sitter library — picks, at each node, the first child whose
half-open point span contains the zero-width point, descending until no
child matches.  The whole root-to-node path is returned (deepest node first
once reversed) so that `node.parent()` is the next path entry. -/

/-- Point of a byte offset: row and byte column, as `line_col` plus the
line-start subtraction compute it in the source. -/
def bPoint : List Char → Nat → Nat → Nat → Point
  | [], _, l, c => ⟨l, c⟩
  | ch :: cs, o, l, c =>
    if o < ch.utf8Size then ⟨l, c⟩
    else if ch = '\n' then bPoint cs (o - ch.utf8Size) (l + 1) 0
    else bPoint cs (o - ch.utf8Size) l (c + ch.utf8Size)

def ptLe (a b : Point) : Bool :=
  a.row < b.row || (a.row = b.row && a.col ≤ b.col)

def ptLt (a b : Point) : Bool :=
  a.row < b.row || (a.row = b.row && a.col < b.col)

theorem sizeN_of_mem {c : RawNode} {cs : List RawNode} (h : c ∈ cs) :
    sizeN c ≤ sizeL cs := by
  induction cs with
  | nil => cases h
  | cons hd tl ih =>
    rcases List.mem_cons.mp h with rfl | h
    · simp only [sizeL]; omega
    · have := ih h
      simp only [sizeL]; omega

/-- Descent of `descendant_for_point_range(point, point)`, as the root-first
path of nodes whose point span contains the zero-width point.  This is the
well-founded form; the pipeline uses the fuel-indexed `descendFuel` below,
proved equal in `descendPath_eq_descendRec`. -/
def descendRec (p : Point) (n : RawNode) : List RawNode :=
  n ::
    match h : n.children.find? (fun c => ptLe c.startPoint p && ptLt p c.endPoint) with
    | some c => descendRec p c
    | none => []
termination_by sizeN n
decreasing_by
  have hm : c ∈ n.children := List.mem_of_find?_eq_some h
  have := sizeN_of_mem hm
  cases n with
  | mk k sb eb sp ep ie im f cs =>
    simp only [RawNode.children] at *
    simp only [sizeN]
    omega

/-- Fuel-indexed descent: each step moves to a strict subtree, so `sizeN`
fuel always suffices. -/
def descendFuel : Nat → Point → RawNode → List RawNode
  | 0, _, n => [n]
  | fuel + 1, p, n =>
    n ::
      match n.children.find? (fun c => ptLe c.startPoint p && ptLt p c.endPoint) with
      | some c => descendFuel fuel p c
      | none => []

def descendPath (p : Point) (n : RawNode) : List RawNode :=
  descendFuel (sizeN n) p n

theorem descendFuel_sufficient :
    ∀ (fuel : Nat) (p : Point) (n : RawNode), sizeN n ≤ fuel + 1 →
      descendFuel fuel p n = descendRec p n := by
  intro fuel
  induction fuel with
  | zero =>
    intro p n h
    rw [descendRec]
    show [n] = _
    congr 1
    cases hf : n.children.find? (fun c => ptLe c.startPoint p && ptLt p c.endPoint) with
    | none => rfl
    | some c =>
      exfalso
      have hm : c ∈ n.children := List.mem_of_find?_eq_some hf
      have h1 := sizeN_of_mem hm
      have h2 := sizeN_pos c
      cases n with
      | mk k sb eb sp ep ie im f cs =>
        simp only [RawNode.children] at *
        simp only [sizeN] at h
        omega
  | succ fuel ih =>
    intro p n h
    rw [descendRec]
    show n :: _ = _
    congr 1
    cases hf : n.children.find? (fun c => ptLe c.startPoint p && ptLt p c.endPoint) with
    | none => rfl
    | some c =>
      have hm : c ∈ n.children := List.mem_of_find?_eq_some hf
      have h1 := sizeN_of_mem hm
      apply ih
      cases n with
      | mk k sb eb sp ep ie im f cs =>
        simp only [RawNode.children] at *
        simp only [sizeN] at h
        omega

/-- Sanity: the fuel form equals the well-founded descent. -/
theorem descendPath_eq_descendRec (p : Point) (n : RawNode) :
    descendPath p n = descendRec p n :=
  descendFuel_sufficient (sizeN n) p n (by omega)

/-- Rust `find_node_at_position`, as the located node followed by its ancestors
up to the root. -/
def findPathAtPosition (d : Doc) (pos : LspPos) : List RawNode :=
  let offset := (d.lspPositionToOffset pos).getD 0
  let pt := bPoint d.text offset 0 0
  (descendPath pt d.tree).reverse

/-! ### Index lookups

Modelled from the spec: `find_label_definition(&doc.index, name)` and
`find_label_references(&doc.index, name)` are declared in
`utils/froggy_helpers.rs` but their index-based bodies are not in the
sources (the file only carries an older tree-walking variant); per §4.5 they
look the name up in the definition map and reference map of the Label Index. -/

def find_label_definition (idx : Index) (name : String) : Option ByteRange :=
  idx.label_defs name

def find_label_references (idx : Index) (name : String) : List ByteRange :=
  idx.label_refs name

/-- Rust `node.utf8_text(doc.text.as_bytes()).unwrap_or(fallback)` as a `String`. -/
def nodeTextOr (d : Doc) (n : RawNode) (fallback : String) : String :=
  ((sliceUtf8 d.text n.startByte n.endByte).map String.mk).getD fallback

/-! ### Queries (`src/backend.rs`)

The `uri` component of each returned `Location` is the document of the query itself
and carries no information, so results are ranges. -/

/-- Rust `Backend::goto_definition`. -/
def gotoDefinition (d : Doc) (pos : LspPos) : Option LspRange :=
  match findPathAtPosition d pos with
  | [] => none
  | node :: ancestors =>
    if node.kind = "identifier" then
      match ancestors.head? with
      | some parent =>
        if parent.kind = "hop" || parent.kind = "leap" then
          match find_label_definition d.index (nodeTextOr d node "__unknown__") with
          | some defR => some (labeldefToRange defR d)
          | none => none
        else none
      | none => none
    else none

/-- Rust `Backend::references`. -/
def references (d : Doc) (pos : LspPos) (includeDeclaration : Bool) :
    Option (List LspRange) :=
  match findPathAtPosition d pos with
  | [] => none
  | node :: _ =>
    if node.kind = "identifier" then
      let label_name := nodeTextOr d node "__unknown__"
      let defPart :=
        if includeDeclaration then
          match find_label_definition d.index label_name with
          | some defR => [labeldefToRange defR d]
          | none => []
        else []
      let locations := defPart ++
        (find_label_references d.index label_name).map (labeldefToRange · d)
      if locations.isEmpty then none else some locations
    else none

/-! ### Hover (`Backend::hover` in `src/backend.rs`)

Modelled-from-the-spec pieces: `leading_word_range` and `make_hover` are
declared in `utils/froggy_helpers.rs` but their bodies are not in the
sources; per §4.5 a hover is a one-line description anchored to a range —
modelled as the pair of the text and the mapped range — and the keyword
anchors span only the leading contiguous non-whitespace run of the node. -/

/-- Spec §4.5 / §4.6: the leading contiguous non-whitespace run of a node. -/
def leading_word_range (t : List Char) (n : RawNode) : ByteRange :=
  let rest := (dropBytes t n.startByte).getD []
  ⟨n.startByte, n.startByte + byteLen (rest.takeWhile fun c => !c.isWhitespace)⟩

/-- Hover payload: contents string and the anchored range. -/
def make_hover (s : String) (r : ByteRange) (d : Doc) : String × LspRange :=
  (s, labeldefToRange r d)

/-- One iteration of the hover loop: the big `match cur.kind()` from
`Backend::hover`, at node `cur` with parent `parent?`; `none` means the
match fell through and the loop moves to the parent. -/
def hoverVisit (d : Doc) (cur : RawNode) (parent? : Option RawNode) :
    Option (String × LspRange) :=
  let r := leading_word_range d.text cur
  match cur.kind with
  | "PLOP" | "plop" => some (make_hover "PLOP <value>: Push a value onto the stack" r d)
  | "SPLASH" | "splash" => some (make_hover "SPLASH: Pop a value off the stack" r d)
  | "GULP" | "gulp" => some (make_hover "GULP: Increment top of stack" r d)
  | "BURP" | "burp" => some (make_hover "BURP: Decrement top of stack" r d)
  | "DUP" | "dup" => some (make_hover "DUP: Duplicate top of stack" r d)
  | "SWAP" | "swap" => some (make_hover "SWAP: Swap top two stack values" r d)
  | "OVER" | "over" => some (make_hover "OVER: Duplicate second from top of stack" r d)
  | "LILY" | "lily" => some (make_hover "LILY <label>: Define a lilypad label" r d)
  | "HOP" | "hop" => some (make_hover "HOP <Lilypad>: Unconditional jump to a lilypad" r d)
  | "LEAP" | "leap" =>
    some (make_hover "LEAP <Lilypad>: Pop a, if (a == 0) then jump to lilypad" r d)
  | "label_definition" =>
    match cur.childByFieldName "name" with
    | some labelNode =>
      some (make_hover ("Label definition: " ++ nodeTextOr d labelNode "")
        ⟨labelNode.startByte, labelNode.endByte⟩ d)
    | none => none
  | "RIBBIT" | "ribbit" => some (make_hover "RIBBIT: Print top of stack" r d)
  | "CROAK" | "croak" => some (make_hover "CROAK: Read input" r d)
  | "ADD" | "add" => some (make_hover "ADD: Pop a b, push (b + a)" r d)
  | "SUB" | "sub" => some (make_hover "SUB: Pop a b, push (b - a)" r d)
  | "MUL" | "mul" => some (make_hover "MUL: Pop a b, push (b * a)" r d)
  | "DIV" | "div" => some (make_hover "DIV: Pop a b, push (b / a)" r d)
  | "EQUALS" | "equals" => some (make_hover "EQUALS: Pop a b, push (b == a)" r d)
  | "NOT_EQUAL" | "not_equal" => some (make_hover "NOT_EQUAL: Pop a b, push (b != a)" r d)
  | "LESS_THAN" | "less_than" => some (make_hover "LESS_THAN: Pop a b, push (b < a)" r d)
  | "GREATER_THAN" | "greater_than" =>
    some (make_hover "GREATER_THAN: Pop a b, push (b > a)" r d)
  | "LESS_EQ" | "less_eq" => some (make_hover "LESS_EQ: Pop a b, push (b <= a)" r d)
  | "GREATER_EQ" | "greater_eq" =>
    some (make_hover "GREATER_EQ: Pop a b, push (b >= a)" r d)
  | "identifier" =>
    match parent? with
    | some parent =>
      if parent.kind = "label_definition" ∨ parent.kind = "hop" ∨ parent.kind = "leap" then
        none
      else
        let text := nodeTextOr d cur ""
        match find_label_definition d.index text with
        | some _ => some (make_hover ("Label: " ++ text) r d)
        | none => none
    | none => none
  | _ => none

/-- Walk of the hover loop up the ancestor path. -/
def hoverWalk (d : Doc) : List RawNode → Option (String × LspRange)
  | [] => none
  | n :: rest =>
    match hoverVisit d n rest.head? with
    | some h => some h
    | none => hoverWalk d rest

/-- Rust `Backend::hover`. -/
def hover (d : Doc) (pos : LspPos) : Option (String × LspRange) :=
  hoverWalk d (findPathAtPosition d pos)

/-! ### Diagnostics (`collect_diagnostics` in `src/diagnostics.rs`)

The walk is the same explicit stack loop as `dfs_visit`.  Note the emitted
range comes from `n.range()` — tree-sitter points, whose columns count
*bytes* from the line start — stuffed directly into `Position` fields. -/

inductive DiagSeverity where
  | error | warning | information | hint
deriving DecidableEq, Repr

structure Diagnostic where
  range : LspRange
  severity : DiagSeverity
  source : String
  message : String
deriving DecidableEq, Repr

/-- Qualifying test: `n.is_error() || n.is_missing() || n.kind() == "ERROR"`. -/
def diagQualifies (n : RawNode) : Bool :=
  n.isErr || n.isMiss || n.kind = "ERROR"

/-- Diagnostic built for one qualifying node. -/
def mkDiagnostic (text : List Char) (n : RawNode) : Diagnostic :=
  { range := ⟨⟨n.startPoint.row, n.startPoint.col⟩, ⟨n.endPoint.row, n.endPoint.col⟩⟩
    severity := DiagSeverity.error
    source := "froggy"
    message := "Syntax error near `" ++
      String.mk ((sliceUtf8 text n.startByte n.endByte).getD []) ++ "`" }

/-- Rust `collect_diagnostics(tree, text)`. -/
def collect_diagnostics (tree : RawNode) (text : List Char) : List Diagnostic :=
  (dfsOrder tree).foldl
    (fun out np => if diagQualifies np.1 then out ++ [mkDiagnostic text np.1] else out) []

/-! ### Semantic tokens (`src/semantic_tokens.rs`) -/

/-- Rust struct `Tok`: line, UTF-16 start column, UTF-16 length, legend type
index, modifier bitset. -/
structure Tok where
  line : Nat
  col : Nat
  len : Nat
  ty : Nat
  mods : Nat
deriving DecidableEq, Repr

namespace token_types

def KEYWORD : Nat := 0
def NUMBER : Nat := 1
def COMMENT : Nat := 2
def STRING : Nat := 3
def VARIABLE : Nat := 4
def FUNCTION : Nat := 5
def OPERATOR : Nat := 6
def PARAMETER : Nat := 7

end token_types

namespace token_modifiers

def DEFINITION : Nat := 1

end token_modifiers

/-- Rust `tok_from_range`: both offsets through the mapper; a token whose
start and end lines differ is dropped. -/
def tok_from_range (d : Doc) (r : ByteRange) (ty mods : Nat) : Option Tok :=
  (d.offsetToLspPosition r.start).bind fun s =>
    (d.offsetToLspPosition r.stop).bind fun e =>
      if s.line ≠ e.line then none
      else some ⟨s.line, s.character, e.character - s.character, ty, mods⟩

/-- Tokens pushed while visiting one node (the closure body of the
`dfs_visit` inside `build_semantic_tokens`), given the kind of the parent. -/
def tokensOf (d : Doc) (n : RawNode) (parentKind : Option String) : List Tok :=
  let kind := n.kind
  if kind = "lily" ∨ kind = "hop" ∨ kind = "leap" then
    (tok_from_range d (leading_word_range d.text n) token_types.KEYWORD 0).toList
  else if kind = "plop" ∨ kind = "splash" ∨ kind = "gulp" ∨ kind = "burp" ∨
      kind = "dup" ∨ kind = "swap" ∨ kind = "over" then
    (tok_from_range d (leading_word_range d.text n) token_types.FUNCTION 0).toList
  else if kind = "add" ∨ kind = "sub" ∨ kind = "mul" ∨ kind = "div" ∨
      kind = "less_than" ∨ kind = "greater_than" ∨ kind = "equals" ∨
      kind = "not_equal" ∨ kind = "less_eq" ∨ kind = "greater_eq" then
    (tok_from_range d (leading_word_range d.text n) token_types.OPERATOR 0).toList
  else if kind = "ribbit" ∨ kind = "croak" then
    (tok_from_range d (leading_word_range d.text n) token_types.PARAMETER 0).toList
  else if kind = "label_definition" then
    (match n.childByFieldName "name" <|> n.child 0 with
      | some nameNode =>
        (tok_from_range d ⟨nameNode.startByte, nameNode.endByte⟩ token_types.KEYWORD 0).toList
      | none => []) ++
    (match n.childByFieldName "name" <|> n.child 1 with
      | some nameNode =>
        (tok_from_range d ⟨nameNode.startByte, nameNode.endByte⟩ token_types.VARIABLE
          token_modifiers.DEFINITION).toList
      | none => [])
  else if kind = "stack_manipulation" then
    match n.childByFieldName "name" <|> n.child 0 with
    | some nameNode =>
      (tok_from_range d ⟨nameNode.startByte, nameNode.endByte⟩ token_types.FUNCTION 0).toList
    | none => []
  else if kind = "identifier" then
    if parentKind = some "label_definition" ∨ parentKind = some "hop" ∨
        parentKind = some "leap" then []
    else (tok_from_range d ⟨n.startByte, n.endByte⟩ token_types.VARIABLE 0).toList
  else if kind = "number" ∨ kind = "integer" ∨ kind = "float" then
    (tok_from_range d ⟨n.startByte, n.endByte⟩ token_types.NUMBER 0).toList
  else if kind = "string" ∨ kind = "string_literal" then
    (tok_from_range d ⟨n.startByte, n.endByte⟩ token_types.STRING 0).toList
  else if kind = "comment" ∨ kind = "line_comment" ∨ kind = "block_comment" then
    (tok_from_range d ⟨n.startByte, n.endByte⟩ token_types.COMMENT 0).toList
  else []

/-- Rust `build_semantic_tokens(doc)`. -/
def build_semantic_tokens (d : Doc) : List Tok :=
  (dfsOrder d.tree).foldl (fun toks np => toks ++ tokensOf d np.1 np.2) []

/-- Wire token, as `lsp_types::SemanticToken`. -/
structure SemanticToken where
  deltaLine : Nat
  deltaStart : Nat
  length : Nat
  tokenType : Nat
  tokenModifiersBitset : Nat
deriving DecidableEq, Repr

/-- Sort key order of `toks.sort_by_key(|t| (t.line, t.col))`. -/
def leTok (a b : Tok) : Bool :=
  a.line < b.line || (a.line = b.line && a.col ≤ b.col)

/-- Rust `encode_semantic_tokens`: stable sort by (line, col), then the delta
fold with `last_line`/`last_col` starting at (0,0). -/
def encode_semantic_tokens (toks : List Tok) : List SemanticToken :=
  let sorted := toks.mergeSort leTok
  (sorted.foldl
    (fun acc t =>
      let dl := t.line - acc.2.1
      let ds := if dl = 0 then t.col - acc.2.2 else t.col
      (acc.1 ++ [⟨dl, ds, t.len, t.ty, t.mods⟩], t.line, t.col))
    (([] : List SemanticToken), 0, 0)).1

/-! ## Theorems -/

/-! ### C1: behaviour of `Doc::update` on a parse failure -/

/-- Minimal concrete tree used by fixtures that only need some tree. -/
def trivialTree : RawNode :=
  ⟨"source_file", 0, 9, ⟨0, 0⟩, ⟨0, 9⟩, false, false, none, []⟩

/-- A concrete good document snapshot. -/
def docBefore : Doc :=
  Doc.new "LILY loop".data 1 trivialTree

/-- C1, counterexample: when the parser produces no tree for the new text,
`Doc::update` hits `expect("parse() returned None")` and panics (modelled
`none`); the update does not evaluate to the retained previous snapshot. -/
theorem update_parse_failure_panics_cex :
    Doc.update docBefore "x".data 2 (fun _ => none) = none ∧
      (none : Option Doc) ≠ some docBefore := by
  exact ⟨rfl, by simp⟩

/-- C1, amended: whenever the parser returns no tree for the new text, the
update panics via `expect` (no resulting document at all), instead of
retaining the previous good snapshot; only a successful parse produces the
fully rebuilt document. -/
theorem update_parse_failure_panics (d : Doc) (text : List Char) (version : Int)
    (parse : List Char → Option RawNode) (h : parse text = none) :
    Doc.update d text version parse = none := by
  unfold Doc.update
  rw [h]

/-- C1, witness for the amended theorem at a concrete input. -/
theorem update_parse_failure_panics_witness :
    Doc.update docBefore "x".data 2 (fun _ => none) = none :=
  update_parse_failure_panics docBefore "x".data 2 (fun _ => none) rfl

/-! ### C2: round trip of the position conversions

Helper notions: `posFold` is the line/UTF-16-column a prefix accumulates,
`lineCnt` counts newlines, `utf16Len` measures UTF-16 units, `nlFree` says a
chunk contains no newline. -/

theorem byteLen_append (a b : List Char) : byteLen (a ++ b) = byteLen a + byteLen b := by
  induction a with
  | nil => simp [byteLen]
  | cons c cs ih => simp [byteLen, ih]; omega

def posFold : List Char → Nat → Nat → LspPos
  | [], l, c => ⟨l, c⟩
  | ch :: cs, l, c =>
    if ch = '\n' then posFold cs (l + 1) 0 else posFold cs l (c + utf16Size ch)

def lineCnt : List Char → Nat
  | [] => 0
  | ch :: cs => (if ch = '\n' then 1 else 0) + lineCnt cs

def utf16Len : List Char → Nat
  | [] => 0
  | ch :: cs => utf16Size ch + utf16Len cs

def nlFree (l : List Char) : Prop := ∀ ch ∈ l, ch ≠ '\n'

theorem bPos_boundary (pre : List Char) :
    ∀ (suf : List Char) (l c : Nat), bPos (pre ++ suf) (byteLen pre) l c = posFold pre l c := by
  induction pre with
  | nil =>
    intro suf l c
    cases suf with
    | nil => rfl
    | cons ch cs =>
      show bPos (ch :: cs) 0 l c = _
      unfold bPos
      simp [Char.utf8Size_pos, posFold]
  | cons ch cs ih =>
    intro suf l c
    show bPos (ch :: (cs ++ suf)) (ch.utf8Size + byteLen cs) l c = _
    unfold bPos
    have h1 : ¬ (ch.utf8Size + byteLen cs < ch.utf8Size) := by omega
    simp only [h1, if_false, Nat.add_sub_cancel_left, posFold]
    by_cases hnl : ch = '\n'
    · simp [hnl, ih]
    · simp [hnl, ih]

theorem posFold_nlFree (b : List Char) :
    ∀ (l c : Nat), nlFree b → posFold b l c = ⟨l, c + utf16Len b⟩ := by
  induction b with
  | nil => intro l c _; simp [posFold, utf16Len]
  | cons ch cs ih =>
    intro l c h
    have hch : ch ≠ '\n' := h ch (List.mem_cons_self ch cs)
    have hcs : nlFree cs := fun x hx => h x (List.mem_cons_of_mem ch hx)
    simp only [posFold, hch, if_false, ih _ _ hcs, utf16Len]
    congr 1
    omega

theorem posFold_append (a : List Char) :
    ∀ (b : List Char) (l c : Nat),
      posFold (a ++ b) l c = posFold b (posFold a l c).line (posFold a l c).character := by
  induction a with
  | nil => intro b l c; rfl
  | cons ch cs ih =>
    intro b l c
    simp only [List.cons_append, posFold]
    by_cases hnl : ch = '\n' <;> simp [hnl, ih]

theorem skipLines_zero (t : List Char) (acc : Nat) : skipLines t 0 acc = some (t, acc) := by
  cases t <;> rfl

theorem skipLines_cons_nl (cs : List Char) (l acc : Nat) :
    skipLines ('\n' :: cs) (l + 1) acc = skipLines cs l (acc + 1) := by
  show (if ('\n' : Char) = '\n' then skipLines cs l (acc + 1)
      else skipLines cs (l + 1) (acc + '\n'.utf8Size)) = _
  rw [if_pos rfl]

theorem skipLines_cons_other {ch : Char} (h : ch ≠ '\n') (cs : List Char) (l acc : Nat) :
    skipLines (ch :: cs) (l + 1) acc = skipLines cs (l + 1) (acc + ch.utf8Size) := by
  show (if ch = '\n' then skipLines cs l (acc + 1)
      else skipLines cs (l + 1) (acc + ch.utf8Size)) = _
  rw [if_neg h]

theorem skipLines_split (a : List Char) :
    ∀ (rest : List Char) (acc : Nat),
      skipLines (a ++ '\n' :: rest) (lineCnt a + 1) acc = some (rest, acc + byteLen a + 1) := by
  induction a with
  | nil =>
    intro rest acc
    show skipLines ('\n' :: rest) (0 + 1) acc = _
    rw [skipLines_cons_nl]
    simp [skipLines, byteLen]
  | cons ch cs ih =>
    intro rest acc
    show skipLines (ch :: (cs ++ '\n' :: rest)) (((if ch = '\n' then 1 else 0) + lineCnt cs) + 1) acc = _
    by_cases hnl : ch = '\n'
    · subst hnl
      simp only [if_true]
      rw [skipLines_cons_nl, Nat.add_comm 1 (lineCnt cs), ih]
      have hnb : ('\n'.utf8Size : Nat) = 1 := by decide
      simp [byteLen, hnb]
      omega
    · simp only [if_neg hnl, Nat.zero_add]
      rw [skipLines_cons_other hnl, ih]
      simp [byteLen]
      omega

theorem consumeCol_zero (t : List Char) (acc : Nat) : consumeCol t 0 acc = acc := by
  cases t with
  | nil => rfl
  | cons ch cs =>
    unfold consumeCol
    have : ¬ (utf16Size ch ≤ 0) := by simp [utf16Size]; split <;> omega
    by_cases hnl : ch = '\n' <;> simp [hnl, this]

theorem consumeCol_line (b : List Char) :
    ∀ (rest : List Char) (acc : Nat), nlFree b →
      consumeCol (b ++ rest) (utf16Len b) acc = acc + byteLen b := by
  induction b with
  | nil =>
    intro rest acc _
    simp only [List.nil_append, utf16Len, byteLen, Nat.add_zero]
    exact consumeCol_zero rest acc
  | cons ch cs ih =>
    intro rest acc h
    have hch : ch ≠ '\n' := h ch (List.mem_cons_self ch cs)
    have hcs : nlFree cs := fun x hx => h x (List.mem_cons_of_mem ch hx)
    show consumeCol (ch :: (cs ++ rest)) (utf16Size ch + utf16Len cs) acc = _
    unfold consumeCol
    have hle : utf16Size ch ≤ utf16Size ch + utf16Len cs := by omega
    simp only [hch, if_false, hle, if_pos, Nat.add_sub_cancel_left, ih rest _ hcs, byteLen]
    omega

theorem lineCnt_posFold (a : List Char) :
    ∀ (l c : Nat), (posFold a l c).line = l + lineCnt a := by
  induction a with
  | nil => intro l c; simp [posFold, lineCnt]
  | cons ch cs ih =>
    intro l c
    simp only [posFold, lineCnt]
    by_cases hnl : ch = '\n' <;> simp [hnl, ih] <;> omega

/-- Decompose any prefix as either newline-free, or a part up to the last
newline followed by a newline-free tail. -/
theorem lastLine_split (pre : List Char) :
    nlFree pre ∨ ∃ a b, pre = a ++ '\n' :: b ∧ nlFree b := by
  induction pre with
  | nil => left; intro c h; cases h
  | cons ch cs ih =>
    rcases ih with hfree | ⟨a, b, rfl, hb⟩
    · by_cases hnl : ch = '\n'
      · right; exact ⟨[], cs, by simp [hnl], hfree⟩
      · left
        intro c hc
        rcases List.mem_cons.mp hc with rfl | hc
        · exact hnl
        · exact hfree c hc
    · right
      exact ⟨ch :: a, b, by simp, hb⟩

/-- C2, amended: the round trip holds at every character-boundary offset —
equivalently, at the byte length of every prefix of the text.  (Offsets
strictly inside a multi-byte character are the exception the counterexample
exhibits.) -/
theorem position_roundtrip (d : Doc) (pre suf : List Char) (h : d.text = pre ++ suf) :
    (d.offsetToLspPosition (byteLen pre)).bind d.lspPositionToOffset = some (byteLen pre) := by
  have hlen : byteLen pre ≤ byteLen d.text := by
    rw [h, byteLen_append]; omega
  unfold Doc.offsetToLspPosition Doc.lspPositionToOffset Froggy.offsetToLspPosition
  rw [if_pos hlen]
  simp only [Option.some_bind]
  rw [h, bPos_boundary]
  rcases lastLine_split pre with hfree | ⟨a, b, rfl, hb⟩
  · rw [posFold_nlFree pre 0 0 hfree]
    unfold Froggy.lspPositionToOffset
    rw [skipLines_zero]
    simp only [Option.map_some', Nat.zero_add]
    rw [consumeCol_line pre suf 0 hfree]
    simp
  · rw [posFold_append, lineCnt_posFold]
    have hnlf : posFold ('\n' :: b) (0 + lineCnt a) (posFold a 0 0).character =
        posFold b (lineCnt a + 1) 0 := by
      simp [posFold]
    rw [hnlf, posFold_nlFree b _ 0 hb]
    unfold Froggy.lspPositionToOffset
    have hassoc : (a ++ '\n' :: b) ++ suf = a ++ '\n' :: (b ++ suf) := by simp
    rw [hassoc, skipLines_split a (b ++ suf) 0]
    simp only [Option.map_some', Nat.zero_add]
    rw [consumeCol_line b suf _ hb]
    rw [byteLen_append]
    have hnb : ('\n'.utf8Size : Nat) = 1 := by decide
    simp [byteLen, hnb]
    omega

/-- C2, witness: round trip at a concrete boundary offset of `"ab\ncd"`. -/
theorem position_roundtrip_witness :
    ((Doc.new "ab\ncd".data 1 trivialTree).offsetToLspPosition (byteLen "ab\nc".data)).bind
        (Doc.new "ab\ncd".data 1 trivialTree).lspPositionToOffset =
      some (byteLen "ab\nc".data) :=
  position_roundtrip (Doc.new "ab\ncd".data 1 trivialTree) "ab\nc".data "d".data rfl

/-- C2, counterexample: byte offset 1 of text `"é"` lies in `[0, len]`
(`len = 2`), yet the round trip does not return it — converting back yields
the character-boundary offset instead. -/
theorem position_roundtrip_cex :
    ((Doc.new "é".data 1 trivialTree).offsetToLspPosition 1).bind
        (Doc.new "é".data 1 trivialTree).lspPositionToOffset = some 0 ∧
      (some 0 : Option Nat) ≠ some 1 := by
  constructor
  · decide
  · decide

/-! ### C3 and C5: what `Index::build` records

The observation extracted per visited node, matching the two arms of the
`dfs_visit` closure in `Index::build`. -/

/-- Definition entry a visit of `n` would record under `name`. -/
def defEntry (text : List Char) (name : String) (n : RawNode) : Option ByteRange :=
  if n.kind = "label_definition" then
    match n.childByFieldName "name" <|> n.child 1 with
    | some id =>
      match sliceUtf8 text id.startByte id.endByte with
      | some s => if name = String.mk s then some ⟨n.startByte, n.endByte⟩ else none
      | none => none
    | none => none
  else none

/-- Reference entry a visit of `n` would append under `name`. -/
def refEntry (text : List Char) (name : String) (n : RawNode) : Option ByteRange :=
  if n.kind = "label_reference" then
    match n.childByFieldName "name" <|> n.child 0 with
    | some id =>
      match sliceUtf8 text id.startByte id.endByte with
      | some s => if name = String.mk s then some ⟨id.startByte, id.endByte⟩ else none
      | none => none
    | none => none
  else none

theorem indexStep_defs (text : List Char) (idx : Index) (n : RawNode) (name : String) :
    (indexStep text idx n).label_defs name =
      (defEntry text name n).or (idx.label_defs name) := by
  unfold indexStep defEntry
  by_cases h1 : n.kind = "label_definition"
  · simp only [h1, if_true]
    rcases hid : n.childByFieldName "name" <|> n.child 1 with _ | id
    · simp [hid]
    · rcases hs : sliceUtf8 text id.startByte id.endByte with _ | s
      · simp [hs]
      · by_cases h2 : name = String.mk s
        · simp [hs, h2]
        · simp [hs, h2, Option.or]
  · simp only [h1, if_false]
    by_cases h2 : n.kind = "label_reference"
    · simp only [h2, if_true]
      rcases hid : n.childByFieldName "name" <|> n.child 0 with _ | id
      · simp [hid]
      · rcases hs : sliceUtf8 text id.startByte id.endByte with _ | s
        · simp [hs]
        · simp [hs]
    · simp [h2]

theorem indexStep_refs (text : List Char) (idx : Index) (n : RawNode) (name : String) :
    (indexStep text idx n).label_refs name =
      idx.label_refs name ++ (refEntry text name n).toList := by
  unfold indexStep refEntry
  by_cases h1 : n.kind = "label_definition"
  · have h2 : n.kind ≠ "label_reference" := by rw [h1]; decide
    simp only [h1, if_true, h2, if_false]
    rcases hid : n.childByFieldName "name" <|> n.child 1 with _ | id
    · simp [hid]
    · rcases hs : sliceUtf8 text id.startByte id.endByte with _ | s
      · simp [hs]
      · simp [hs]
  · simp only [h1, if_false]
    by_cases h2 : n.kind = "label_reference"
    · simp only [h2, if_true]
      rcases hid : n.childByFieldName "name" <|> n.child 0 with _ | id
      · simp [hid]
      · rcases hs : sliceUtf8 text id.startByte id.endByte with _ | s
        · simp [hs]
        · by_cases h3 : name = String.mk s
          · simp [hs, h3]
          · simp [hs, h3]
    · simp [h2]

theorem build_defs_foldl (text : List Char) (name : String) :
    ∀ (l : List (RawNode × Option String)) (idx : Index),
      ((l.foldl (fun i np => indexStep text i np.1) idx).label_defs name) =
        ((l.filterMap fun np => defEntry text name np.1).getLast?).or
          (idx.label_defs name) := by
  intro l
  induction l with
  | nil => intro idx; simp
  | cons hd tl ih =>
    intro idx
    rw [List.foldl_cons, ih, List.filterMap_cons]
    cases hent : defEntry text name hd.1 with
    | none => rw [indexStep_defs, hent, Option.none_or]
    | some r =>
      rw [indexStep_defs, hent]
      cases htl : (tl.filterMap fun np => defEntry text name np.1) with
      | nil => simp
      | cons y ys =>
        rw [List.getLast?_cons_cons]
        have : ∃ z, (y :: ys).getLast? = some z := by
          have hne : (y :: ys) ≠ [] := by simp
          rcases Option.isSome_iff_exists.mp (List.getLast?_isSome.mpr hne) with ⟨z, hz⟩
          exact ⟨z, hz⟩
        rcases this with ⟨z, hz⟩
        rw [hz]
        simp

theorem build_refs_foldl (text : List Char) (name : String) :
    ∀ (l : List (RawNode × Option String)) (idx : Index),
      ((l.foldl (fun i np => indexStep text i np.1) idx).label_refs name) =
        idx.label_refs name ++ (l.filterMap fun np => refEntry text name np.1) := by
  intro l
  induction l with
  | nil => intro idx; simp
  | cons hd tl ih =>
    intro idx
    rw [List.foldl_cons, ih, indexStep_refs, List.filterMap_cons]
    cases hent : refEntry text name hd.1 with
    | none => simp
    | some r => simp

/-- C3, amended: for every tree, text and name, the stored reference list is
exactly the `label_reference` occurrences of that name in *traversal* order —
and the traversal visits siblings in reverse document order, so for sibling
references the list is in descending, not ascending, start-byte order. -/
theorem label_refs_traversal_order (tree : RawNode) (text : List Char) (name : String) :
    (Index.build tree text).label_refs name =
      ((dfsOrder tree).filterMap fun np => refEntry text name np.1) := by
  unfold Index.build
  rw [build_refs_foldl]
  simp [Index.empty]

/-- C5, amended: the recorded definition for a name is the last matching
`label_definition` occurrence in *traversal* order; the traversal visits
siblings in reverse document order, so of two sibling definitions the one
earlier in the document wins. -/
theorem label_defs_traversal_last (tree : RawNode) (text : List Char) (name : String) :
    (Index.build tree text).label_defs name =
      ((dfsOrder tree).filterMap fun np => defEntry text name np.1).getLast? := by
  unfold Index.build
  rw [build_defs_foldl]
  simp [Index.empty]

/-! ### Fixture: `"LILY loop\nHOP loop\nLEAP loop\n"`

One label definition and two jump references to the same label, at ascending
byte positions.  The tree mirrors what the external grammar would produce:
a `source_file` with the three statements as siblings, jump nodes wrapping a
`label_reference` around the target identifier (modelled from the spec,
§4.2: the reference node is "the jump target of an unconditional or
conditional jump instruction").  Byte spans, points and field names are
consistent with the text. -/

def textLoop : List Char := "LILY loop\nHOP loop\nLEAP loop\n".data

def idDef : RawNode :=
  ⟨"identifier", 5, 9, ⟨0, 5⟩, ⟨0, 9⟩, false, false, some "name", []⟩

def kwLily : RawNode :=
  ⟨"LILY", 0, 4, ⟨0, 0⟩, ⟨0, 4⟩, false, false, none, []⟩

def defNode : RawNode :=
  ⟨"label_definition", 0, 9, ⟨0, 0⟩, ⟨0, 9⟩, false, false, none, [kwLily, idDef]⟩

def idRef1 : RawNode :=
  ⟨"identifier", 14, 18, ⟨1, 4⟩, ⟨1, 8⟩, false, false, some "name", []⟩

def refNode1 : RawNode :=
  ⟨"label_reference", 14, 18, ⟨1, 4⟩, ⟨1, 8⟩, false, false, some "name", [idRef1]⟩

def kwHop : RawNode :=
  ⟨"HOP", 10, 13, ⟨1, 0⟩, ⟨1, 3⟩, false, false, none, []⟩

def hopNode : RawNode :=
  ⟨"hop", 10, 18, ⟨1, 0⟩, ⟨1, 8⟩, false, false, none, [kwHop, refNode1]⟩

def idRef2 : RawNode :=
  ⟨"identifier", 24, 28, ⟨2, 5⟩, ⟨2, 9⟩, false, false, some "name", []⟩

def refNode2 : RawNode :=
  ⟨"label_reference", 24, 28, ⟨2, 5⟩, ⟨2, 9⟩, false, false, some "name", [idRef2]⟩

def kwLeap : RawNode :=
  ⟨"LEAP", 19, 23, ⟨2, 0⟩, ⟨2, 4⟩, false, false, none, []⟩

def leapNode : RawNode :=
  ⟨"leap", 19, 28, ⟨2, 0⟩, ⟨2, 9⟩, false, false, none, [kwLeap, refNode2]⟩

def treeLoop : RawNode :=
  ⟨"source_file", 0, 29, ⟨0, 0⟩, ⟨3, 0⟩, false, false, none,
    [defNode, hopNode, leapNode]⟩

def docLoop : Doc := Doc.new textLoop 1 treeLoop

/-- C3, counterexample: the two `label_reference` occurrences of `loop` sit
at ascending byte positions 14 and 24, yet the stored list is
`[24..28, 14..18]` — reverse document order, not ascending start bytes. -/
theorem label_refs_not_document_order_cex :
    (Index.build treeLoop textLoop).label_refs "loop" = [⟨24, 28⟩, ⟨14, 18⟩] ∧
      ([(⟨24, 28⟩ : ByteRange), ⟨14, 18⟩] ≠ [(⟨14, 18⟩ : ByteRange), ⟨24, 28⟩]) := by
  constructor
  · decide
  · decide

/-! ### Fixture: `"LILY x\nLILY x\n"` — the same label defined twice -/

def textDup : List Char := "LILY x\nLILY x\n".data

def dupDef1 : RawNode :=
  ⟨"label_definition", 0, 6, ⟨0, 0⟩, ⟨0, 6⟩, false, false, none,
    [⟨"LILY", 0, 4, ⟨0, 0⟩, ⟨0, 4⟩, false, false, none, []⟩,
     ⟨"identifier", 5, 6, ⟨0, 5⟩, ⟨0, 6⟩, false, false, some "name", []⟩]⟩

def dupDef2 : RawNode :=
  ⟨"label_definition", 7, 13, ⟨1, 0⟩, ⟨1, 6⟩, false, false, none,
    [⟨"LILY", 7, 11, ⟨1, 0⟩, ⟨1, 4⟩, false, false, none, []⟩,
     ⟨"identifier", 12, 13, ⟨1, 5⟩, ⟨1, 6⟩, false, false, some "name", []⟩]⟩

def treeDup : RawNode :=
  ⟨"source_file", 0, 14, ⟨0, 0⟩, ⟨2, 0⟩, false, false, none, [dupDef1, dupDef2]⟩

/-- C5, counterexample: of the two sibling definitions of `x` at byte ranges
`[0,6)` and `[7,13)` the recorded one is `[0,6)` — the *first* occurrence in
document order, not the last, because the traversal visits the later sibling
first and the earlier sibling then overwrites it. -/
theorem label_defs_last_in_document_cex :
    (Index.build treeDup textDup).label_defs "x" = some ⟨0, 6⟩ ∧
      (some (⟨0, 6⟩ : ByteRange) ≠ some (⟨7, 13⟩ : ByteRange)) := by
  constructor
  · decide
  · decide

/-! ### C4: the diagnostics walk -/

theorem collect_diagnostics_foldl (text : List Char) :
    ∀ (l : List (RawNode × Option String)) (acc : List Diagnostic),
      (l.foldl (fun out np => if diagQualifies np.1 then out ++ [mkDiagnostic text np.1]
          else out) acc) =
        acc ++ (l.filter fun np => diagQualifies np.1).map fun np => mkDiagnostic text np.1 := by
  intro l
  induction l with
  | nil => intro acc; simp
  | cons hd tl ih =>
    intro acc
    rw [List.foldl_cons]
    by_cases hq : diagQualifies hd.1
    · rw [if_pos hq, ih]
      simp [List.filter_cons, hq]
    · rw [if_neg hq, ih]
      simp [List.filter_cons, hq]

/-- C4, amended: one diagnostic per qualifying node of the traversal — no
deduplication — with severity Error, source `"froggy"`, the
backtick-quoted message, and a range built from the tree-sitter *points* of
the node (row plus byte column), which is not the UTF-16 Position-Mapper
range whenever a non-ASCII character precedes the node on its line. -/
theorem collect_diagnostics_spec :
    (∀ (tree : RawNode) (text : List Char),
      collect_diagnostics tree text =
        ((dfsOrder tree).filter fun np => diagQualifies np.1).map
          fun np => mkDiagnostic text np.1) ∧
    (∀ (text : List Char) (n : RawNode),
      (mkDiagnostic text n).severity = DiagSeverity.error ∧
      (mkDiagnostic text n).source = "froggy" ∧
      (mkDiagnostic text n).message = "Syntax error near `" ++
        String.mk ((sliceUtf8 text n.startByte n.endByte).getD []) ++ "`" ∧
      (mkDiagnostic text n).range =
        ⟨⟨n.startPoint.row, n.startPoint.col⟩, ⟨n.endPoint.row, n.endPoint.col⟩⟩) := by
  constructor
  · intro tree text
    unfold collect_diagnostics
    rw [collect_diagnostics_foldl]
    simp
  · intro text n
    exact ⟨rfl, rfl, rfl, rfl⟩

/-! Fixture: text `"é?"` with an ERROR node covering the `?` after a
two-byte character. -/

def textErr : List Char := "é?".data

def errNode : RawNode :=
  ⟨"ERROR", 2, 3, ⟨0, 2⟩, ⟨0, 3⟩, true, false, none, []⟩

def treeErr : RawNode :=
  ⟨"source_file", 0, 3, ⟨0, 0⟩, ⟨0, 3⟩, false, false, none, [errNode]⟩

/-- C4, counterexample: the emitted range carries the tree-sitter byte
columns `(0,2)-(0,3)`, while the Position Mapper maps the same byte span
`[2,3)` to UTF-16 columns `(0,1)-(0,2)` — the two disagree after `é`. -/
theorem diagnostics_range_not_utf16_cex :
    collect_diagnostics treeErr textErr =
      [⟨⟨⟨0, 2⟩, ⟨0, 3⟩⟩, DiagSeverity.error, "froggy", "Syntax error near `?`"⟩] ∧
    offsetToLspPosition textErr 2 = some ⟨0, 1⟩ ∧
    offsetToLspPosition textErr 3 = some ⟨0, 2⟩ ∧
    ((⟨⟨0, 2⟩, ⟨0, 3⟩⟩ : LspRange) ≠ ⟨⟨0, 1⟩, ⟨0, 2⟩⟩) := by
  refine ⟨?_, ?_, ?_, ?_⟩ <;> decide

/-! ### C6: the references query -/

/-- C6, amended: whenever `references` answers, the located node is an
identifier and the answer is the optional prepended definition range
(present exactly when `includeDeclaration` holds and the definition map has
an entry) followed by the stored reference list — which is in traversal
order, i.e. reverse document order for sibling references — and the answer
is never the empty list. -/
theorem references_characterization (d : Doc) (pos : LspPos) (incl : Bool)
    (l : List LspRange) (h : references d pos incl = some l) :
    ∃ node rest, findPathAtPosition d pos = node :: rest ∧
      node.kind = "identifier" ∧ l ≠ [] ∧
      l = (if incl then
             match find_label_definition d.index (nodeTextOr d node "__unknown__") with
             | some defR => [labeldefToRange defR d]
             | none => []
           else []) ++
        (find_label_references d.index (nodeTextOr d node "__unknown__")).map
          (labeldefToRange · d) := by
  unfold references at h
  rcases hp : findPathAtPosition d pos with _ | ⟨node, rest⟩
  · rw [hp] at h
    exact absurd h (by simp)
  · rw [hp] at h
    dsimp only at h
    by_cases hk : node.kind = "identifier"
    · rw [if_pos hk] at h
      refine ⟨node, rest, rfl, hk, ?_, ?_⟩
      · by_cases he : ((if incl then
              match find_label_definition d.index (nodeTextOr d node "__unknown__") with
              | some defR => [labeldefToRange defR d]
              | none => []
            else []) ++
            (find_label_references d.index (nodeTextOr d node "__unknown__")).map
              (labeldefToRange · d)).isEmpty
        · rw [if_pos he] at h
          exact absurd h (by simp)
        · rw [if_neg he] at h
          have hl : l = _ := (Option.some.inj h).symm
          rw [hl]
          intro hcontra
          rw [hcontra] at he
          exact he rfl
      · by_cases he : ((if incl then
              match find_label_definition d.index (nodeTextOr d node "__unknown__") with
              | some defR => [labeldefToRange defR d]
              | none => []
            else []) ++
            (find_label_references d.index (nodeTextOr d node "__unknown__")).map
              (labeldefToRange · d)).isEmpty
        · rw [if_pos he] at h
          exact absurd h (by simp)
        · rw [if_neg he] at h
          exact (Option.some.inj h).symm
    · rw [if_neg hk] at h
      exact absurd h (by simp)

/-- C6, witness for the characterization at a concrete document: one
definition of `loop` and two jump references. -/
theorem references_characterization_witness :
    ∃ node rest, findPathAtPosition docLoop ⟨1, 5⟩ = node :: rest ∧
      node.kind = "identifier" ∧
      ([(⟨⟨0, 0⟩, ⟨0, 9⟩⟩ : LspRange), ⟨⟨2, 5⟩, ⟨2, 9⟩⟩, ⟨⟨1, 4⟩, ⟨1, 8⟩⟩] ≠ []) ∧
      [(⟨⟨0, 0⟩, ⟨0, 9⟩⟩ : LspRange), ⟨⟨2, 5⟩, ⟨2, 9⟩⟩, ⟨⟨1, 4⟩, ⟨1, 8⟩⟩] =
        (if true then
           match find_label_definition docLoop.index (nodeTextOr docLoop node "__unknown__") with
           | some defR => [labeldefToRange defR docLoop]
           | none => []
         else []) ++
        (find_label_references docLoop.index (nodeTextOr docLoop node "__unknown__")).map
          (labeldefToRange · docLoop) :=
  references_characterization docLoop ⟨1, 5⟩ true _ (by decide)

/-- C6, counterexample: for one definition and two sibling references the
query does return exactly 3 ranges with the definition first, but the two
reference ranges come in reverse document order, not document order. -/
theorem references_not_document_order_cex :
    references docLoop ⟨1, 5⟩ true =
      some [⟨⟨0, 0⟩, ⟨0, 9⟩⟩, ⟨⟨2, 5⟩, ⟨2, 9⟩⟩, ⟨⟨1, 4⟩, ⟨1, 8⟩⟩] ∧
    (some [(⟨⟨0, 0⟩, ⟨0, 9⟩⟩ : LspRange), ⟨⟨2, 5⟩, ⟨2, 9⟩⟩, ⟨⟨1, 4⟩, ⟨1, 8⟩⟩] ≠
      some [(⟨⟨0, 0⟩, ⟨0, 9⟩⟩ : LspRange), ⟨⟨1, 4⟩, ⟨1, 8⟩⟩, ⟨⟨2, 5⟩, ⟨2, 9⟩⟩]) := by
  refine ⟨?_, ?_⟩ <;> decide

/-! ### C7: the go-to-definition query -/

/-! Fixture `"HOP missing"`: a jump whose target has no definition. -/

def textMissing : List Char := "HOP missing".data

def idMissing : RawNode :=
  ⟨"identifier", 4, 11, ⟨0, 4⟩, ⟨0, 11⟩, false, false, some "name", []⟩

def hopMissing : RawNode :=
  ⟨"hop", 0, 11, ⟨0, 0⟩, ⟨0, 11⟩, false, false, none,
    [⟨"HOP", 0, 3, ⟨0, 0⟩, ⟨0, 3⟩, false, false, none, []⟩, idMissing]⟩

def treeMissing : RawNode :=
  ⟨"source_file", 0, 11, ⟨0, 0⟩, ⟨0, 11⟩, false, false, none, [hopMissing]⟩

def docMissing : Doc := Doc.new textMissing 1 treeMissing

/-! Fixture `"LILY loop\nHOP loop\n"` with the jump target directly under
the jump node, so go-to-definition can fire. -/

def textJump : List Char := "LILY loop\nHOP loop\n".data

def idJump : RawNode :=
  ⟨"identifier", 14, 18, ⟨1, 4⟩, ⟨1, 8⟩, false, false, some "name", []⟩

def hopJump : RawNode :=
  ⟨"hop", 10, 18, ⟨1, 0⟩, ⟨1, 8⟩, false, false, none,
    [⟨"HOP", 10, 13, ⟨1, 0⟩, ⟨1, 3⟩, false, false, none, []⟩, idJump]⟩

def treeJump : RawNode :=
  ⟨"source_file", 0, 19, ⟨0, 0⟩, ⟨2, 0⟩, false, false, none, [defNode, hopJump]⟩

def docJump : Doc := Doc.new textJump 1 treeJump

/-- C7: `goto_definition` returns a range iff the located node is an
identifier whose immediate parent is a jump node (`hop` or `leap`) and the
definition map has an entry for its text, and then the range is that
definition mapped through the Position Mapper; at `"HOP missing"` it
returns nothing, and at a resolvable jump target it returns the range of
the definition. -/
theorem goto_definition_spec :
    (∀ (d : Doc) (pos : LspPos) (r : LspRange),
      gotoDefinition d pos = some r ↔
        ∃ node parent rest, findPathAtPosition d pos = node :: parent :: rest ∧
          node.kind = "identifier" ∧
          (parent.kind = "hop" ∨ parent.kind = "leap") ∧
          ∃ defR, find_label_definition d.index (nodeTextOr d node "__unknown__") = some defR ∧
            r = labeldefToRange defR d) ∧
    gotoDefinition docMissing ⟨0, 5⟩ = none ∧
    gotoDefinition docJump ⟨1, 5⟩ = some ⟨⟨0, 0⟩, ⟨0, 9⟩⟩ := by
  refine ⟨?_, by decide, by decide⟩
  intro d pos r
  constructor
  · intro h
    unfold gotoDefinition at h
    rcases hp : findPathAtPosition d pos with _ | ⟨node, ancestors⟩
    · rw [hp] at h
      exact absurd h (by simp)
    · rw [hp] at h
      dsimp only at h
      by_cases hk : node.kind = "identifier"
      · rw [if_pos hk] at h
        rcases ancestors with _ | ⟨parent, rest⟩
        · exact absurd h (by simp)
        · simp only [List.head?] at h
          by_cases hpk : (parent.kind = "hop" || parent.kind = "leap") = true
          · rw [if_pos hpk] at h
            rcases hdef : find_label_definition d.index (nodeTextOr d node "__unknown__")
              with _ | defR
            · rw [hdef] at h
              exact absurd h (by simp)
            · rw [hdef] at h
              refine ⟨node, parent, rest, rfl, hk, ?_, defR, hdef, ?_⟩
              · simpa [Bool.or_eq_true, decide_eq_true_eq] using hpk
              · exact (Option.some.inj h).symm
          · rw [if_neg hpk] at h
            exact absurd h (by simp)
      · rw [if_neg hk] at h
        exact absurd h (by simp)
  · rintro ⟨node, parent, rest, hp, hk, hpk, defR, hdef, hr⟩
    unfold gotoDefinition
    rw [hp]
    dsimp only
    rw [if_pos hk]
    simp only [List.head?]
    have hb : (parent.kind = "hop" || parent.kind = "leap") = true := by
      rcases hpk with h' | h' <;> simp [h']
    rw [if_pos hb, hdef, hr]

/-! ### C8: the token stream of `"PLOP 5"` -/

def textPlop : List Char := "PLOP 5".data

def numPlop : RawNode :=
  ⟨"number", 5, 6, ⟨0, 5⟩, ⟨0, 6⟩, false, false, none, []⟩

def plopNode : RawNode :=
  ⟨"plop", 0, 6, ⟨0, 0⟩, ⟨0, 6⟩, false, false, none,
    [⟨"PLOP", 0, 4, ⟨0, 0⟩, ⟨0, 4⟩, false, false, none, []⟩, numPlop]⟩

def treePlop : RawNode :=
  ⟨"source_file", 0, 6, ⟨0, 0⟩, ⟨0, 6⟩, false, false, none, [plopNode]⟩

def docPlop : Doc := Doc.new textPlop 1 treePlop

theorem plop_build_tokens :
    build_semantic_tokens docPlop =
      [⟨0, 0, 4, token_types.FUNCTION, 0⟩, ⟨0, 5, 1, token_types.NUMBER, 0⟩] := by
  decide

/-- C8, counterexample: the stream for `"PLOP 5"` has exactly two tokens,
delta-encoded with the first relative to `(0,0)`, but the first token type
is `FUNCTION` (legend index 5, the stack-operation class), not `KEYWORD`
(legend index 0, reserved for control flow). -/
theorem plop_first_token_not_keyword_cex :
    encode_semantic_tokens (build_semantic_tokens docPlop) =
      [⟨0, 0, 4, token_types.FUNCTION, 0⟩, ⟨0, 5, 1, token_types.NUMBER, 0⟩] ∧
    token_types.FUNCTION ≠ token_types.KEYWORD := by
  constructor
  · unfold encode_semantic_tokens
    rw [plop_build_tokens, List.mergeSort_of_sorted (by decide)]
    decide
  · decide

/-- C8, amended: for `"PLOP 5"` the semantic token stream contains exactly
two tokens, the first classified Function (the stack-operation class of the
legend) and the second Number, delta-encoded with the first token relative
to `(0,0)`. -/
theorem plop_token_stream :
    (encode_semantic_tokens (build_semantic_tokens docPlop)).length = 2 ∧
    encode_semantic_tokens (build_semantic_tokens docPlop) =
      [⟨0, 0, 4, token_types.FUNCTION, 0⟩, ⟨0, 5, 1, token_types.NUMBER, 0⟩] := by
  have henc : encode_semantic_tokens (build_semantic_tokens docPlop) =
      [⟨0, 0, 4, token_types.FUNCTION, 0⟩, ⟨0, 5, 1, token_types.NUMBER, 0⟩] := by
    unfold encode_semantic_tokens
    rw [plop_build_tokens, List.mergeSort_of_sorted (by decide)]
    decide
  refine ⟨?_, henc⟩
  rw [henc]
  rfl

/-! ### C9: the token encoder -/

def zeroTok : Tok := ⟨0, 0, 0, 0, 0⟩

/-- Modelled from the spec (§4.6 encoding sentence): one wire tuple per
token, `(deltaLineFromPrevious, deltaColumnFromPrevious-if-same-line-
else-absoluteColumn, length, tokenType, modifierBitset)`. -/
def emitDelta (prev t : Tok) : SemanticToken :=
  ⟨t.line - prev.line, if t.line = prev.line then t.col - prev.col else t.col,
   t.len, t.ty, t.mods⟩

/-- Modelled from the spec: the whole delta encoding of a sorted token list,
the first token relative to `(0,0)`. -/
def deltaSpec (ts : List Tok) : List SemanticToken :=
  List.zipWith emitDelta (zeroTok :: ts) ts

theorem leTok_trans (a b c : Tok) (h1 : leTok a b = true) (h2 : leTok b c = true) :
    leTok a c = true := by
  simp only [leTok, Bool.or_eq_true, Bool.and_eq_true, decide_eq_true_eq] at *
  omega

theorem leTok_total (a b : Tok) : (leTok a b || leTok b a) = true := by
  simp only [leTok, Bool.or_eq_true, Bool.and_eq_true, decide_eq_true_eq]
  omega

theorem leTok_zero (t : Tok) : leTok zeroTok t = true := by
  simp only [leTok, zeroTok, Bool.or_eq_true, Bool.and_eq_true, decide_eq_true_eq]
  omega

theorem encode_fold (ts : List Tok) :
    ∀ (prev : Tok) (data : List SemanticToken),
      List.Chain' (fun a b => leTok a b = true) (prev :: ts) →
      (ts.foldl
        (fun acc t =>
          (acc.1 ++ [⟨t.line - acc.2.1, if t.line - acc.2.1 = 0 then t.col - acc.2.2 else t.col,
            t.len, t.ty, t.mods⟩], t.line, t.col))
        (data, prev.line, prev.col)).1 =
        data ++ List.zipWith emitDelta (prev :: ts) ts := by
  induction ts with
  | nil => intro prev data _; simp
  | cons t ts ih =>
    intro prev data hchain
    have hrel : leTok prev t = true := (List.chain'_cons.mp hchain).1
    have htail : List.Chain' (fun a b => leTok a b = true) (t :: ts) :=
      (List.chain'_cons.mp hchain).2
    have hle : prev.line ≤ t.line := by
      simp only [leTok, Bool.or_eq_true, Bool.and_eq_true, decide_eq_true_eq] at hrel
      omega
    rw [List.foldl_cons]
    have hstep :
        (⟨t.line - prev.line, if t.line - prev.line = 0 then t.col - prev.col else t.col,
          t.len, t.ty, t.mods⟩ : SemanticToken) = emitDelta prev t := by
      unfold emitDelta
      congr 1
      by_cases hl : t.line = prev.line
      · rw [if_pos (by omega), if_pos hl]
      · rw [if_neg (by omega), if_neg hl]
    dsimp only
    have ihh := ih t (data ++ [(⟨t.line - prev.line,
        if t.line - prev.line = 0 then t.col - prev.col else t.col,
        t.len, t.ty, t.mods⟩ : SemanticToken)]) htail
    rw [ihh, hstep]
    simp [List.zipWith]

/-- C9: `encode_semantic_tokens` first stably sorts by `(line, column)`
ascending and then emits exactly the spec delta encoding — each wire tuple
is `(deltaLine, deltaColumn-if-same-line-else-absolute-column, length,
type, modifiers)` relative to the previous token, the first relative to
`(0,0)`. -/
theorem encode_semantic_tokens_spec (toks : List Tok) :
    encode_semantic_tokens toks = deltaSpec (toks.mergeSort leTok) ∧
    List.Pairwise (fun a b => leTok a b = true) (toks.mergeSort leTok) := by
  have hsorted : List.Pairwise (fun a b => leTok a b = true) (toks.mergeSort leTok) :=
    List.sorted_mergeSort leTok_trans leTok_total toks
  constructor
  · unfold encode_semantic_tokens deltaSpec
    have hchain : List.Chain' (fun a b => leTok a b = true)
        (zeroTok :: toks.mergeSort leTok) := by
      rw [List.chain'_cons']
      refine ⟨?_, hsorted.chain'⟩
      intro y _
      exact leTok_zero y
    have := encode_fold (toks.mergeSort leTok) zeroTok [] hchain
    simpa [zeroTok] using this
  · exact hsorted

/-! ### C10: degradation of unmappable positions -/

/-- C10: when a query position cannot be mapped to a byte offset, the node
locator silently falls back to byte offset 0, and hover, go-to-definition
and references all answer exactly as they would at position `(0,0)` — the
very start of the document — with no error. -/
theorem invalid_position_degrades (d : Doc) (pos : LspPos)
    (h : d.lspPositionToOffset pos = none) :
    findPathAtPosition d pos = findPathAtPosition d ⟨0, 0⟩ ∧
    hover d pos = hover d ⟨0, 0⟩ ∧
    gotoDefinition d pos = gotoDefinition d ⟨0, 0⟩ ∧
    (∀ incl, references d pos incl = references d ⟨0, 0⟩ incl) := by
  have h0 : d.lspPositionToOffset ⟨0, 0⟩ = some 0 := by
    unfold Doc.lspPositionToOffset Froggy.lspPositionToOffset
    rw [skipLines_zero]
    simp [consumeCol_zero]
  have hpath : findPathAtPosition d pos = findPathAtPosition d ⟨0, 0⟩ := by
    unfold findPathAtPosition
    rw [h, h0]
    rfl
  refine ⟨hpath, ?_, ?_, ?_⟩
  · unfold hover
    rw [hpath]
  · unfold gotoDefinition
    rw [hpath]
  · intro incl
    unfold references
    rw [hpath]

/-- C10, witness: position `(5,0)` does not exist in the one-line document
`"HOP missing"`; every query answers as at `(0,0)`. -/
theorem invalid_position_degrades_witness :
    findPathAtPosition docMissing ⟨5, 0⟩ = findPathAtPosition docMissing ⟨0, 0⟩ ∧
    hover docMissing ⟨5, 0⟩ = hover docMissing ⟨0, 0⟩ ∧
    gotoDefinition docMissing ⟨5, 0⟩ = gotoDefinition docMissing ⟨0, 0⟩ ∧
    (∀ incl, references docMissing ⟨5, 0⟩ incl = references docMissing ⟨0, 0⟩ incl) :=
  invalid_position_degrades docMissing ⟨5, 0⟩ (by decide)

end Froggy
